import Mathlib

/-!
Verification of the Redis table adapter (`src/custom-redis-adapter/src/RedisTableAdapter.ts`)
against its specification.

The store state is modelled explicitly: Redis hashes, sets, sorted sets, plain
string values and integer counters live in separate key-indexed maps (in Redis a
key holds exactly one of these types; the adapter never reuses one key at two
types, so the separation is faithful).  JavaScript objects (rows, partial
records) are association lists in insertion order.  `Date.now()` is an explicit
`now` parameter.  The optimistic-transaction primitive (WATCH / MULTI / EXEC) is
modelled by a `watched` component plus an abort oracle `aborts : Nat → Bool`
telling whether the EXEC of the given attempt is aborted by a concurrent
modification (EXEC returning null in the source).
-/

namespace RedisAdapter

/-! ### Key naming scheme (template literals in the source) -/

def schemaKey (table : String) : String := table ++ ":schema"

def rowsSetKey (table : String) : String := table ++ ":rows"

def nextIdKey (table : String) : String := table ++ ":next_id"

def rowKey (table id : String) : String := table ++ ":" ++ id

def indexKey (table field value : String) : String :=
  table ++ ":index:" ++ field ++ ":" ++ value

def sessionKey (id : String) : String := "session:" ++ id

/-- A row / hash / partial record: association list of field names to string
values in insertion order (models `type Row = Record<string, string>`). -/
abbrev Row := List (String × String)

/-- First-match lookup in an association list (JS object property read,
`currentData[field]`). -/
def rlookup (h : Row) (f : String) : Option String :=
  match h with
  | [] => none
  | p :: rest => if p.1 = f then some p.2 else rlookup rest f

/-- Write one field of a hash: overwrite in place when the field is present,
append at the end otherwise (JS object write / one field of HMSET). -/
def hsetField (h : Row) (f v : String) : Row :=
  match h with
  | [] => [(f, v)]
  | p :: rest => if p.1 = f then (f, v) :: rest else p :: hsetField rest f v

/-- HMSET with several fields: upsert each pair in order. -/
def hmsetList (h : Row) (ps : Row) : Row :=
  ps.foldl (fun a p => hsetField a p.1 p.2) h

/-- SADD: append the member when it is absent. -/
def saddList (l : List String) (x : String) : List String :=
  if x ∈ l then l else l ++ [x]

/-- Models `field.startsWith('_')` from the delete path. -/
def startsWithUnderscore (f : String) : Bool :=
  match f.data with
  | [] => false
  | c :: _ => c = '_'

/-! ### The store state -/

structure RedisState where
  /-- Integer values reached only through INCR / SET '0' (the per-table
  `next_id` counters). -/
  counters : String → Option Nat
  /-- Plain string values (session payloads). -/
  strings : String → Option String
  /-- Remaining TTLs set by SETEX. -/
  ttls : String → Option Nat
  /-- Hashes; the empty list models an absent key (a Redis hash key exists iff
  it has at least one field). -/
  hashes : String → Row
  /-- Sets, as duplicate-free member lists; `[]` models an absent key. -/
  sets : String → List String
  /-- Sorted sets: member/score pairs (scores modelled as integers). -/
  zsets : String → List (String × Int)
  /-- Keys currently under WATCH on the connection. -/
  watched : List String

def emptyState : RedisState :=
  ⟨fun _ => none, fun _ => none, fun _ => none, fun _ => [], fun _ => [], fun _ => [], []⟩

def setSet (s : RedisState) (k : String) (v : List String) : RedisState :=
  { s with sets := Function.update s.sets k v }

def setHash (s : RedisState) (k : String) (v : Row) : RedisState :=
  { s with hashes := Function.update s.hashes k v }

def sadd (s : RedisState) (k x : String) : RedisState :=
  setSet s k (saddList (s.sets k) x)

def srem (s : RedisState) (k x : String) : RedisState :=
  setSet s k ((s.sets k).erase x)

def watchKey (s : RedisState) (k : String) : RedisState :=
  { s with watched := k :: s.watched }

/-- UNWATCH, and also the watch-clearing effect of EXEC. -/
def clearWatch (s : RedisState) : RedisState :=
  { s with watched := [] }

/-! ### Error messages (verbatim from the source) -/

def schemaExistsMsg (table : String) : String :=
  "Schema already defined for table \"" ++ table ++ "\""

def emptySchemaMsg : String := "Schema must have at least one field"

def noSchemaMsg (table : String) : String :=
  "Schema not defined for table \"" ++ table ++ "\". Call createTable first."

def missingFieldMsg (table field : String) : String :=
  "Missing required field \"" ++ field ++ "\" in row for table \"" ++ table ++ "\""

def extraFieldMsg (table field : String) : String :=
  "Extra field \"" ++ field ++ "\" not in schema for table \"" ++ table ++ "\""

def updateRetryMsg : String :=
  "Failed to update row after maximum retries due to concurrent modifications"

def deleteRetryMsg : String :=
  "Failed to delete row after maximum retries due to concurrent modifications"

def refreshRetryMsg : String :=
  "Failed to refresh session after maximum retries due to concurrent modifications"

/-- `const maxRetries = 5` (same constant in update, delete and refreshSession). -/
def maxRetries : Nat := 5

/-! ### Schema management -/

/-- `createTable(table, fields)` (source lines 34–43). -/
def createTable (s : RedisState) (table : String) (fields : List String) :
    Except String Unit × RedisState :=
  if s.sets (schemaKey table) ≠ [] then (.error (schemaExistsMsg table), s)
  else if fields = [] then (.error emptySchemaMsg, s)
  else (.ok (), fields.foldl (fun st f => sadd st (schemaKey table) f) s)

/-- `initNextId(table)` (source lines 90–94): SET the counter to 0, creating
or resetting it. -/
def initNextId (s : RedisState) (table : String) : RedisState :=
  { s with counters := Function.update s.counters (nextIdKey table) (some 0) }

/-! ### CRUD -/

/-- One step of insert's index pipeline: SADD the new id to the
(field, value) index of one record entry. -/
def insIndexStep (table rowId : String) (st : RedisState) (p : String × String) :
    RedisState :=
  sadd st (indexKey table p.1 p.2) rowId

/-- `insert(table, row)` (source lines 103–154).  Validation first (schema
present, no missing field, no extra field, each error naming the field), then:
INCR the id counter, HMSET the row hash with both timestamp fields spread on
top of the record, SADD the id to the membership set, and SADD the id to the
per-(field, value) index of every record field.  Errors are thrown before any
mutation, so the error branches return the state unchanged. -/
def insert (s : RedisState) (now : Nat) (table : String) (row : Row) :
    Except String String × RedisState :=
  if s.sets (schemaKey table) = [] then (.error (noSchemaMsg table), s)
  else
    match (s.sets (schemaKey table)).find? (fun f => !((row.map Prod.fst).contains f)) with
    | some f => (.error (missingFieldMsg table f), s)
    | none =>
      match (row.map Prod.fst).find? (fun f => !((s.sets (schemaKey table)).contains f)) with
      | some f => (.error (extraFieldMsg table f), s)
      | none =>
        let currentId := (s.counters (nextIdKey table)).getD 0 + 1
        let rowId := toString currentId
        let ts := toString now
        let s1 := { s with
          counters := Function.update s.counters (nextIdKey table) (some currentId) }
        let s2 := setHash s1 (rowKey table rowId)
          (hmsetList (s1.hashes (rowKey table rowId))
            (row ++ [("_created_at", ts), ("_updated_at", ts)]))
        let s3 := sadd s2 (rowsSetKey table) rowId
        let s4 := row.foldl (insIndexStep table rowId) s3
        (.ok rowId, s4)

/-- One entry of `indexUpdates` in update: (field, oldValue, newValue);
applied as SREM from the old-value index then SADD to the new-value index. -/
def applyIndexMove (table id : String) (st : RedisState) (m : String × String × String) :
    RedisState :=
  sadd (srem st (indexKey table m.1 m.2.1) id) (indexKey table m.1 m.2.2) id

/-- The retry loop of `update` (source lines 162–219).  `fuel` is the number of
attempts left, `attempt` the index fed to the abort oracle.  Note the JS
truthiness test `if (oldValue && oldValue !== newValue)`: a field whose current
value is absent or the empty string never produces an index move. -/
def updateLoop (now : Nat) (aborts : Nat → Bool) (table id : String) (upd : Row) :
    Nat → Nat → RedisState → Except String Bool × RedisState
  | 0, _, s => (.error updateRetryMsg, s)
  | fuel + 1, attempt, s =>
    let s1 := watchKey s (rowKey table id)
    if s1.hashes (rowKey table id) = [] then (.ok false, clearWatch s1)
    else
      let currentData := s1.hashes (rowKey table id)
      let indexUpdates := upd.filterMap (fun p =>
        match rlookup currentData p.1 with
        | some oldValue =>
          if oldValue ≠ "" ∧ oldValue ≠ p.2 then some (p.1, oldValue, p.2) else none
        | none => none)
      if aborts attempt then
        updateLoop now aborts table id upd fuel (attempt + 1) (clearWatch s1)
      else
        let s2 := clearWatch (setHash s1 (rowKey table id)
          (hmsetList currentData (upd ++ [("_updated_at", toString now)])))
        (.ok true, indexUpdates.foldl (applyIndexMove table id) s2)

/-- `update(table, id, updates)` (source lines 157–222). -/
def update (s : RedisState) (now : Nat) (aborts : Nat → Bool) (table id : String)
    (upd : Row) : Except String Bool × RedisState :=
  updateLoop now aborts table id upd maxRetries 0 s

/-- One step of delete's index-cleanup pipeline: SREM the id from the
(field, value) index of one row entry, skipping fields starting with '_'. -/
def delIndexStep (table id : String) (st : RedisState) (p : String × String) :
    RedisState :=
  if startsWithUnderscore p.1 then st else srem st (indexKey table p.1 p.2) id

/-- The retry loop of `delete` (source lines 231–275): WATCH, HGETALL; empty
hash means "not found"; otherwise SREM from the membership set and DEL the hash
in a transaction, then SREM the id from the index of every non-underscore field
of the last read row data. -/
def deleteLoop (aborts : Nat → Bool) (table id : String) :
    Nat → Nat → RedisState → Except String Bool × RedisState
  | 0, _, s => (.error deleteRetryMsg, s)
  | fuel + 1, attempt, s =>
    let s1 := watchKey s (rowKey table id)
    let rowData := s1.hashes (rowKey table id)
    if rowData = [] then (.ok false, clearWatch s1)
    else if aborts attempt then
      deleteLoop aborts table id fuel (attempt + 1) (clearWatch s1)
    else
      let s2 := clearWatch (setHash (srem s1 (rowsSetKey table) id) (rowKey table id) [])
      (.ok true, rowData.foldl (delIndexStep table id) s2)

/-- `delete(table, id)` (source lines 225–278). -/
def delete (s : RedisState) (aborts : Nat → Bool) (table id : String) :
    Except String Bool × RedisState :=
  deleteLoop aborts table id maxRetries 0 s

/-- `getById(table, id)` (source lines 281–288): HGETALL; an empty hash is
"not found". -/
def getById (s : RedisState) (table id : String) : Option Row :=
  let rowData := s.hashes (rowKey table id)
  if rowData = [] then none else some rowData

/-! ### Query options (source lines 715–739) -/

structure QueryOptions where
  limit : Option Nat := none
  offset : Option Nat := none
  sortBy : Option String := none
  sortOrder : Option String := none

/-- Insert into a sorted list, keeping existing order among elements the
comparator cannot separate. -/
def orderedInsertB {α : Type} (le : α → α → Bool) (a : α) : List α → List α
  | [] => [a]
  | b :: bs => if le a b then a :: b :: bs else b :: orderedInsertB le a bs

/-- A stable comparison sort, modelling `Array.prototype.sort(comparator)`
(the ECMAScript sort is stable; any stable comparator sort is an equally
faithful model of it). -/
def jsSort {α : Type} (le : α → α → Bool) : List α → List α
  | [] => []
  | a :: as => orderedInsertB le a (jsSort le as)

/-- Lexicographic (code-unit) comparison of character lists, as JS `<` on
strings. -/
def charListLtB : List Char → List Char → Bool
  | [], [] => false
  | [], _ :: _ => true
  | _ :: _, [] => false
  | a :: as, b :: bs => if a < b then true else if b < a then false else charListLtB as bs

/-- JS `<` on strings: lexicographic comparison, never numeric. -/
def jsStrLtB (a b : String) : Bool := charListLtB a.data b.data

/-- The comparator body `aVal < bVal ? -1 : aVal > bVal ? 1 : 0`, on possibly
absent (undefined) values: any comparison involving undefined is false, giving
0. -/
def jsCompare (a b : Option String) : Int :=
  match a, b with
  | some x, some y => if jsStrLtB x y then -1 else if jsStrLtB y x then 1 else 0
  | _, _ => 0

/-- The value a row presents to the sort comparator (its `sortBy`-field
value). -/
def sortVal (f : String) (r : String × Row) : String := (rlookup r.2 f).getD ""

/-- The full sort comparator of `applyQueryOptions`, including the
`sortOrder === 'desc'` negation. -/
def rowCmp (o : QueryOptions) (f : String) (a b : String × Row) : Int :=
  let c := jsCompare (rlookup a.2 f) (rlookup b.2 f)
  if o.sortOrder = some "desc" then -c else c

/-- `applyQueryOptions(rows, options)` (source lines 715–739): stable sort by
the comparator when `sortBy` is truthy (nonempty), then `slice(offset)`, then
`slice(0, limit)`. -/
def applyQueryOptions (rows : List (String × Row)) (options : Option QueryOptions) :
    List (String × Row) :=
  match options with
  | none => rows
  | some o =>
    let sorted :=
      match o.sortBy with
      | some f => if f = "" then rows else jsSort (fun a b => decide (rowCmp o f a b ≤ 0)) rows
      | none => rows
    let paged := match o.offset with | some off => sorted.drop off | none => sorted
    match o.limit with | some lim => paged.take lim | none => paged

/-- The raw row list of `getAll` before options: one (id, HGETALL) pair per
member of the membership set. -/
def getAllRows (s : RedisState) (table : String) : List (String × Row) :=
  (s.sets (rowsSetKey table)).map (fun rowId => (rowId, s.hashes (rowKey table rowId)))

/-- `getAll(table, options)` (source lines 291–304). -/
def getAll (s : RedisState) (table : String) (options : Option QueryOptions) :
    List (String × Row) :=
  applyQueryOptions (getAllRows s table) options

/-- `findByField(table, field, value, options)` (source lines 322–334). -/
def findByField (s : RedisState) (table field value : String)
    (options : Option QueryOptions) : List (String × Row) :=
  applyQueryOptions ((s.sets (indexKey table field value)).map
    (fun rowId => (rowId, s.hashes (rowKey table rowId)))) options

/-- `count(table)` (source lines 352–355): SCARD of the membership set. -/
def count (s : RedisState) (table : String) : Nat :=
  (s.sets (rowsSetKey table)).length

/-- `countByField(table, field, value)` (source lines 358–361): SCARD of the
field-value index. -/
def countByField (s : RedisState) (table field value : String) : Nat :=
  (s.sets (indexKey table field value)).length

/-! ### Sorted sets -/

/-- A ZRANGEBYSCORE bound: a number or one of the sentinels '-inf' / '+inf'. -/
inductive ScoreBound where
  | negInf : ScoreBound
  | posInf : ScoreBound
  | fin : Int → ScoreBound

def lowerOk : ScoreBound → Int → Bool
  | .negInf, _ => true
  | .posInf, _ => false
  | .fin m, x => m ≤ x

def upperOk : ScoreBound → Int → Bool
  | .negInf, _ => false
  | .posInf, _ => true
  | .fin m, x => x ≤ m

/-- Inclusive score-range membership. -/
def inRange (lo hi : ScoreBound) (x : Int) : Bool := lowerOk lo x && upperOk hi x

/-- The total (score, member) order of a sorted set: by score, ties broken by
lexicographic member order. -/
def zleB (a b : String × Int) : Bool :=
  if a.2 < b.2 then true else if b.2 < a.2 then false else !(jsStrLtB b.1 a.1)

/-- The external store primitive ZRANGEBYSCORE (an assumed collaborator, spec
section 6): members in ascending (score, member) order whose score lies in the
inclusive range, with LIMIT offset count applied after the range filter.
Scores are modelled as integers. -/
def zrangebyscore (z : List (String × Int)) (lo hi : ScoreBound)
    (offlim : Option (Nat × Nat)) : List (String × Int) :=
  let filtered := (jsSort zleB z).filter (fun p => inRange lo hi p.2)
  match offlim with
  | some ol => (filtered.drop ol.1).take ol.2
  | none => filtered

structure RangeOptions where
  limit : Option Nat := none
  offset : Option Nat := none
  withScores : Bool := false

/-- `getSortedSetByScore(key, min, max, options)` (source lines 416–441): LIMIT
is passed to the store only when `offset` and `limit` are both given.  The
`withScores` branch of the source only reformats the reply; the member
sequence, which is what the claims are about, is as modelled here. -/
def getSortedSetByScore (s : RedisState) (key : String) (lo hi : ScoreBound)
    (options : Option RangeOptions) : List String :=
  let offlim :=
    match options with
    | some o =>
      match o.offset, o.limit with
      | some off, some lim => some (off, lim)
      | _, _ => none
    | none => none
  (zrangebyscore (s.zsets key) lo hi offlim).map Prod.fst

/-! ### Sessions -/

/-- The retry loop of `refreshSession` (source lines 679–708): WATCH, GET; a
missing (or JS-falsy, i.e. empty) payload is "not found"; otherwise SETEX the
same payload with the new expiry inside the transaction. -/
def refreshLoop (sessionId : String) (ttl : Nat) (aborts : Nat → Bool) :
    Nat → Nat → RedisState → Except String Bool × RedisState
  | 0, _, s => (.error refreshRetryMsg, s)
  | fuel + 1, attempt, s =>
    let s1 := watchKey s (sessionKey sessionId)
    match s1.strings (sessionKey sessionId) with
    | none => (.ok false, clearWatch s1)
    | some userId =>
      if userId = "" then (.ok false, clearWatch s1)
      else if aborts attempt then
        refreshLoop sessionId ttl aborts fuel (attempt + 1) (clearWatch s1)
      else
        (.ok true, clearWatch
          { s1 with
            strings := Function.update s1.strings (sessionKey sessionId) (some userId),
            ttls := Function.update s1.ttls (sessionKey sessionId) (some ttl) })

/-- `refreshSession(sessionId, expiresInSeconds)` (source lines 674–711). -/
def refreshSession (s : RedisState) (aborts : Nat → Bool) (sessionId : String)
    (ttl : Nat) : Except String Bool × RedisState :=
  refreshLoop sessionId ttl aborts maxRetries 0 s

/-! ### Derived notions used by the claims -/

/-- The two system fields added by insert / update. -/
def isSystemField (f : String) : Bool :=
  f = "_created_at" || f = "_updated_at"

/-- The data-model invariant on one row hash (spec section 3): the present
fields are exactly the schema fields plus the two system fields. -/
def rowConforms (schemaFields : List String) (h : Row) : Prop :=
  (∀ f ∈ h.map Prod.fst, f ∈ schemaFields ∨ isSystemField f = true) ∧
  (∀ f ∈ schemaFields, (rlookup h f).isSome = true) ∧
  (rlookup h "_created_at").isSome = true ∧ (rlookup h "_updated_at").isSome = true

instance (schemaFields : List String) (h : Row) : Decidable (rowConforms schemaFields h) := by
  unfold rowConforms
  infer_instance

/-- One table-level mutating call, for statements quantifying over operation
sequences.  `initNextId` and `dropTable` (the explicit counter resets) are not
in this list. -/
inductive TableOp where
  | ins : Nat → Row → TableOp
  | upd : Nat → (Nat → Bool) → String → Row → TableOp
  | del : (Nat → Bool) → String → TableOp
  | mkTable : List String → TableOp

/-- Run one operation; the second component is the id returned when the
operation was a successful insert. -/
def stepOp (table : String) (s : RedisState) : TableOp → RedisState × Option String
  | .ins now row => let r := insert s now table row; (r.2, r.1.toOption)
  | .upd now ab id u => ((update s now ab table id u).2, none)
  | .del ab id => ((delete s ab table id).2, none)
  | .mkTable fs => ((createTable s table fs).2, none)

/-- The ids minted by the successful inserts of an operation sequence, in
order. -/
def mintedIds (table : String) : RedisState → List TableOp → List String
  | _, [] => []
  | s, op :: ops =>
    let r := stepOp table s op
    match r.2 with
    | some id => id :: mintedIds table r.1 ops
    | none => mintedIds table r.1 ops

/-- The value of a table's id counter. -/
def ctrOf (s : RedisState) (t : String) : Nat := (s.counters (nextIdKey t)).getD 0

/-- The state built by the success path of `insert` (the same let-chain as in
`insert` itself; named so that theorems can speak about it). -/
def insertDone (s : RedisState) (now : Nat) (t : String) (row : Row) : RedisState :=
  let currentId := (s.counters (nextIdKey t)).getD 0 + 1
  let rowId := toString currentId
  let ts := toString now
  let s1 := { s with
    counters := Function.update s.counters (nextIdKey t) (some currentId) }
  let s2 := setHash s1 (rowKey t rowId)
    (hmsetList (s1.hashes (rowKey t rowId))
      (row ++ [("_created_at", ts), ("_updated_at", ts)]))
  let s3 := sadd s2 (rowsSetKey t) rowId
  row.foldl (insIndexStep t rowId) s3

deriving instance DecidableEq for Except

/-- A small concrete store used to evaluate the theorems on explicit inputs:
table "t" with schema ["a"], one row "1" with a = "x" (indexed), counter at 1,
one session "s" for user "u1", one sorted set "z". -/
def demoState : RedisState where
  counters := Function.update (fun _ => none) (nextIdKey "t") (some 1)
  strings := Function.update (fun _ => none) (sessionKey "s") (some "u1")
  ttls := fun _ => none
  hashes := Function.update (fun _ => []) (rowKey "t" "1")
    [("a", "x"), ("_created_at", "0"), ("_updated_at", "0")]
  sets := Function.update (Function.update (Function.update (fun _ => [])
    (schemaKey "t") ["a"]) (rowsSetKey "t") ["1"]) (indexKey "t" "a" "x") ["1"]
  zsets := Function.update (fun _ => []) "z" [("m2", 7), ("m1", 3), ("m3", 5)]
  watched := []

/-- Like `demoState`, but row "1" has a = "" (a falsy value in JS), indexed
under (a, "") as insert would have done. -/
def demoStateEmptyVal : RedisState where
  counters := Function.update (fun _ => none) (nextIdKey "t") (some 1)
  strings := fun _ => none
  ttls := fun _ => none
  hashes := Function.update (fun _ => []) (rowKey "t" "1")
    [("a", ""), ("_created_at", "0"), ("_updated_at", "0")]
  sets := Function.update (Function.update (Function.update (fun _ => [])
    (schemaKey "t") ["a"]) (rowsSetKey "t") ["1"]) (indexKey "t" "a" "") ["1"]
  zsets := fun _ => []
  watched := []

/-! ### State projection lemmas -/

@[simp] theorem watchKey_counters (s : RedisState) (k : String) : (watchKey s k).counters = s.counters := rfl

@[simp] theorem watchKey_strings (s : RedisState) (k : String) : (watchKey s k).strings = s.strings := rfl

@[simp] theorem watchKey_hashes (s : RedisState) (k : String) : (watchKey s k).hashes = s.hashes := rfl

@[simp] theorem watchKey_sets (s : RedisState) (k : String) : (watchKey s k).sets = s.sets := rfl

@[simp] theorem clearWatch_counters (s : RedisState) : (clearWatch s).counters = s.counters := rfl

@[simp] theorem clearWatch_strings (s : RedisState) : (clearWatch s).strings = s.strings := rfl

@[simp] theorem clearWatch_hashes (s : RedisState) : (clearWatch s).hashes = s.hashes := rfl

@[simp] theorem clearWatch_sets (s : RedisState) : (clearWatch s).sets = s.sets := rfl

@[simp] theorem clearWatch_watchKey (s : RedisState) (k : String) :
    clearWatch (watchKey s k) = clearWatch s := rfl

@[simp] theorem setHash_counters (s : RedisState) (k : String) (v : Row) : (setHash s k v).counters = s.counters := rfl

@[simp] theorem setHash_strings (s : RedisState) (k : String) (v : Row) : (setHash s k v).strings = s.strings := rfl

@[simp] theorem setHash_sets (s : RedisState) (k : String) (v : Row) : (setHash s k v).sets = s.sets := rfl

@[simp] theorem setHash_hashes (s : RedisState) (k : String) (v : Row) :
    (setHash s k v).hashes = Function.update s.hashes k v := rfl

@[simp] theorem setSet_counters (s : RedisState) (k : String) (v : List String) : (setSet s k v).counters = s.counters := rfl

@[simp] theorem setSet_strings (s : RedisState) (k : String) (v : List String) : (setSet s k v).strings = s.strings := rfl

@[simp] theorem setSet_hashes (s : RedisState) (k : String) (v : List String) : (setSet s k v).hashes = s.hashes := rfl

@[simp] theorem setSet_sets (s : RedisState) (k : String) (v : List String) :
    (setSet s k v).sets = Function.update s.sets k v := rfl

@[simp] theorem sadd_counters (s : RedisState) (k x : String) : (sadd s k x).counters = s.counters := rfl

@[simp] theorem sadd_strings (s : RedisState) (k x : String) : (sadd s k x).strings = s.strings := rfl

@[simp] theorem sadd_hashes (s : RedisState) (k x : String) : (sadd s k x).hashes = s.hashes := rfl

theorem sadd_sets (s : RedisState) (k x : String) :
    (sadd s k x).sets = Function.update s.sets k (saddList (s.sets k) x) := rfl

@[simp] theorem srem_counters (s : RedisState) (k x : String) : (srem s k x).counters = s.counters := rfl

@[simp] theorem srem_strings (s : RedisState) (k x : String) : (srem s k x).strings = s.strings := rfl

@[simp] theorem srem_hashes (s : RedisState) (k x : String) : (srem s k x).hashes = s.hashes := rfl

theorem srem_sets (s : RedisState) (k x : String) :
    (srem s k x).sets = Function.update s.sets k ((s.sets k).erase x) := rfl

/-! ### Key disjointness -/

theorem string_append_left_cancel {a b c : String} (h : a ++ b = a ++ c) : b = c := by
  apply String.ext
  have hd := congrArg String.data h
  rw [String.data_append, String.data_append] at hd
  exact List.append_cancel_left hd

theorem indexKey_val_inj {t f v1 v2 : String} (h : indexKey t f v1 = indexKey t f v2) :
    v1 = v2 :=
  string_append_left_cancel h

/-! ### Small set / association-list lemmas -/

theorem rlookup_nil (f : String) : rlookup [] f = none := rfl

theorem rlookup_cons (p : String × String) (rest : Row) (f : String) :
    rlookup (p :: rest) f = if p.1 = f then some p.2 else rlookup rest f := rfl

theorem mem_saddList {l : List String} {x y : String} :
    x ∈ saddList l y ↔ x ∈ l ∨ x = y := by
  unfold saddList
  split
  · rename_i hy
    constructor
    · exact fun hx => Or.inl hx
    · rintro (hx | rfl) <;> assumption
  · simp [List.mem_append]

theorem saddList_length_of_not_mem {l : List String} {y : String} (h : y ∉ l) :
    (saddList l y).length = l.length + 1 := by
  unfold saddList
  rw [if_neg h, List.length_append, List.length_singleton]

theorem saddList_of_mem {l : List String} {y : String} (h : y ∈ l) :
    saddList l y = l := by
  unfold saddList
  exact if_pos h

theorem saddList_nodup {l : List String} {y : String} (h : l.Nodup) :
    (saddList l y).Nodup := by
  unfold saddList
  split
  · exact h
  · rename_i hy
    simpa [List.nodup_append] using ⟨h, hy⟩

theorem rlookup_isSome_iff {h : Row} {f : String} :
    (rlookup h f).isSome = true ↔ f ∈ h.map Prod.fst := by
  induction h with
  | nil => simp [rlookup]
  | cons p rest ih =>
    by_cases hp : p.1 = f
    · simp [rlookup, hp]
    · simp [rlookup, hp, ih, Ne.symm hp]

theorem rlookup_eq_none_iff {h : Row} {f : String} :
    rlookup h f = none ↔ f ∉ h.map Prod.fst := by
  rw [← rlookup_isSome_iff]
  cases rlookup h f <;> simp

theorem rlookup_mem {h : Row} {f v : String} (hl : rlookup h f = some v) :
    (f, v) ∈ h := by
  induction h with
  | nil => simp [rlookup] at hl
  | cons p rest ih =>
    by_cases hp : p.1 = f
    · rw [rlookup, if_pos hp] at hl
      obtain ⟨_, _⟩ := p
      obtain rfl := hp
      obtain rfl := Option.some.inj hl
      exact List.mem_cons_self _ _
    · rw [rlookup, if_neg hp] at hl
      exact List.mem_cons_of_mem _ (ih hl)

theorem rlookup_append (h1 h2 : Row) (f : String) :
    rlookup (h1 ++ h2) f = (rlookup h1 f).or (rlookup h2 f) := by
  induction h1 with
  | nil => simp [rlookup]
  | cons p rest ih =>
    by_cases hp : p.1 = f
    · simp [rlookup, hp]
    · simp [rlookup, hp, ih]

theorem rlookup_hsetField (h : Row) (f v g : String) :
    rlookup (hsetField h f v) g = if g = f then some v else rlookup h g := by
  induction h with
  | nil =>
    by_cases hg : g = f
    · subst hg; simp [hsetField, rlookup]
    · have hg' : ¬(f = g) := fun hh => hg hh.symm
      simp [hsetField, rlookup, hg, hg']
  | cons p rest ih =>
    by_cases hp : p.1 = f
    · by_cases hg : g = f
      · subst hg
        simp [hsetField, hp, rlookup]
      · have hpg : ¬(p.1 = g) := by rw [hp]; exact fun hh => hg hh.symm
        have hfg : ¬(f = g) := fun hh => hg hh.symm
        simp [hsetField, hp, rlookup, hg, hpg, hfg]
    · by_cases hpg : p.1 = g
      · have hgf : ¬(g = f) := fun hh => hp (hpg.trans hh)
        simp [hsetField, hp, rlookup, hpg, hgf]
      · simp [hsetField, hp, rlookup, hpg, ih]

theorem hmsetList_cons (h : Row) (p : String × String) (ps : Row) :
    hmsetList h (p :: ps) = hmsetList (hsetField h p.1 p.2) ps := rfl

theorem rlookup_hmsetList_isSome (ps : Row) :
    ∀ (h : Row) (g : String),
      (rlookup (hmsetList h ps) g).isSome = true ↔
        (rlookup h g).isSome = true ∨ g ∈ ps.map Prod.fst := by
  induction ps with
  | nil => intro h g; simp [hmsetList]
  | cons p ps ih =>
    intro h g
    rw [hmsetList_cons, ih]
    by_cases hg : g = p.1
    · simp [rlookup_hsetField, hg]
    · have hg' : ¬(p.1 = g) := fun hh => hg hh.symm
      simp [rlookup_hsetField, hg, hg']

theorem mem_keys_hmsetList {ps h : Row} {g : String} :
    g ∈ (hmsetList h ps).map Prod.fst ↔ g ∈ h.map Prod.fst ∨ g ∈ ps.map Prod.fst := by
  rw [← rlookup_isSome_iff, rlookup_hmsetList_isSome, rlookup_isSome_iff]

theorem rlookup_hmsetList_of_nodup (ps : Row) (hnd : (ps.map Prod.fst).Nodup) :
    ∀ (h : Row) (g : String),
      rlookup (hmsetList h ps) g = (rlookup ps g).or (rlookup h g) := by
  induction ps with
  | nil => intro h g; simp [hmsetList, rlookup]
  | cons p ps ih =>
    intro h g
    rw [List.map_cons, List.nodup_cons] at hnd
    rw [hmsetList_cons, ih hnd.2]
    by_cases hg : g = p.1
    · subst hg
      have hnone : rlookup ps p.1 = none := by
        rw [rlookup_eq_none_iff]
        exact hnd.1
      simp [rlookup_cons, hnone, rlookup_hsetField]
    · have hg' : ¬(p.1 = g) := fun hh => hg hh.symm
      simp [rlookup_cons, rlookup_hsetField, hg, hg']

/-! ### Generic fold-preservation lemmas -/

theorem foldl_counters_const {α : Type} (g : RedisState → α → RedisState)
    (hg : ∀ st a, (g st a).counters = st.counters) :
    ∀ (l : List α) (st : RedisState), (l.foldl g st).counters = st.counters := by
  intro l
  induction l with
  | nil => intro st; rfl
  | cons a as ih => intro st; rw [List.foldl_cons, ih, hg]

theorem foldl_strings_const {α : Type} (g : RedisState → α → RedisState)
    (hg : ∀ st a, (g st a).strings = st.strings) :
    ∀ (l : List α) (st : RedisState), (l.foldl g st).strings = st.strings := by
  intro l
  induction l with
  | nil => intro st; rfl
  | cons a as ih => intro st; rw [List.foldl_cons, ih, hg]

theorem foldl_hashes_const {α : Type} (g : RedisState → α → RedisState)
    (hg : ∀ st a, (g st a).hashes = st.hashes) :
    ∀ (l : List α) (st : RedisState), (l.foldl g st).hashes = st.hashes := by
  intro l
  induction l with
  | nil => intro st; rfl
  | cons a as ih => intro st; rw [List.foldl_cons, ih, hg]

theorem foldl_sets_not_mem {α : Type} (g : RedisState → α → RedisState) (x : String)
    (hg : ∀ st a k, x ∉ st.sets k → x ∉ (g st a).sets k) :
    ∀ (l : List α) (st : RedisState) (k : String),
      x ∉ st.sets k → x ∉ (l.foldl g st).sets k := by
  intro l
  induction l with
  | nil => intro st k h; exact h
  | cons a as ih => intro st k h; rw [List.foldl_cons]; exact ih _ _ (hg st a k h)

/-! ### Sort lemmas (stable comparator sort) -/

theorem mem_orderedInsertB {α : Type} {le : α → α → Bool} {a x : α} :
    ∀ {l : List α}, x ∈ orderedInsertB le a l ↔ x = a ∨ x ∈ l := by
  intro l
  induction l with
  | nil => simp [orderedInsertB]
  | cons b bs ih =>
    rw [orderedInsertB]
    split
    · simp
    · rw [List.mem_cons, ih, List.mem_cons]
      tauto

theorem orderedInsertB_perm {α : Type} (le : α → α → Bool) (a : α) :
    ∀ (l : List α), (orderedInsertB le a l).Perm (a :: l) := by
  intro l
  induction l with
  | nil => simp [orderedInsertB]
  | cons b bs ih =>
    rw [orderedInsertB]
    split
    · exact List.Perm.refl _
    · exact (List.Perm.cons b ih).trans (List.Perm.swap a b bs)

theorem jsSort_perm {α : Type} (le : α → α → Bool) :
    ∀ (l : List α), (jsSort le l).Perm l := by
  intro l
  induction l with
  | nil => exact List.Perm.refl _
  | cons a as ih =>
    rw [jsSort]
    exact (orderedInsertB_perm le a _).trans (List.Perm.cons a ih)

theorem mem_jsSort {α : Type} {le : α → α → Bool} {x : α} {l : List α} :
    x ∈ jsSort le l ↔ x ∈ l :=
  (jsSort_perm le l).mem_iff

theorem pairwise_orderedInsertB {α : Type} (le : α → α → Bool) (a : α) :
    ∀ (l : List α), l.Pairwise (fun x y => le x y = true) →
      (∀ b ∈ l, le a b = true ∨ le b a = true) →
      (∀ b ∈ l, ∀ c ∈ l, le a b = true → le b c = true → le a c = true) →
      (orderedInsertB le a l).Pairwise (fun x y => le x y = true) := by
  intro l
  induction l with
  | nil => intro _ _ _; simp [orderedInsertB]
  | cons b bs ih =>
    intro hp htot htrans
    rw [orderedInsertB]
    split
    · rename_i hab
      refine List.Pairwise.cons ?_ hp
      intro c hc
      rcases List.mem_cons.mp hc with rfl | hc
      · exact hab
      · exact htrans b (List.mem_cons_self _ _) c (List.mem_cons_of_mem _ hc) hab
          (List.rel_of_pairwise_cons hp hc)
    · rename_i hab
      have hba : le b a = true := by
        rcases htot b (List.mem_cons_self _ _) with h | h
        · exact absurd h hab
        · exact h
      refine List.Pairwise.cons ?_ ?_
      · intro c hc
        rcases mem_orderedInsertB.mp hc with rfl | hc
        · exact hba
        · exact List.rel_of_pairwise_cons hp hc
      · exact ih hp.of_cons (fun c hc => htot c (List.mem_cons_of_mem _ hc))
          (fun c hc d hd => htrans c (List.mem_cons_of_mem _ hc) d (List.mem_cons_of_mem _ hd))

theorem pairwise_jsSort {α : Type} (le : α → α → Bool) :
    ∀ (l : List α),
      (∀ a ∈ l, ∀ b ∈ l, ∀ c ∈ l, le a b = true → le b c = true → le a c = true) →
      (∀ a ∈ l, ∀ b ∈ l, le a b = true ∨ le b a = true) →
      (jsSort le l).Pairwise (fun x y => le x y = true) := by
  intro l
  induction l with
  | nil => intro _ _; simp [jsSort]
  | cons a as ih =>
    intro htrans htot
    rw [jsSort]
    have hmem : ∀ b ∈ jsSort le as, b ∈ as := fun b hb => mem_jsSort.mp hb
    refine pairwise_orderedInsertB le a _ ?_ ?_ ?_
    · exact ih
        (fun x hx y hy z hz => htrans x (List.mem_cons_of_mem _ hx) y (List.mem_cons_of_mem _ hy)
          z (List.mem_cons_of_mem _ hz))
        (fun x hx y hy => htot x (List.mem_cons_of_mem _ hx) y (List.mem_cons_of_mem _ hy))
    · exact fun b hb => htot a (List.mem_cons_self _ _) b (List.mem_cons_of_mem _ (hmem b hb))
    · exact fun b hb c hc => htrans a (List.mem_cons_self _ _) b
        (List.mem_cons_of_mem _ (hmem b hb)) c (List.mem_cons_of_mem _ (hmem c hc))

/-! ### The JS string comparison agrees with the lexicographic order on String -/

theorem charListLtB_iff_lex :
    ∀ (as bs : List Char), charListLtB as bs = true ↔ List.Lex (· < ·) as bs := by
  intro as
  induction as with
  | nil =>
    intro bs
    cases bs with
    | nil =>
      simp only [charListLtB]
      constructor
      · intro h; exact absurd h (by simp)
      · intro h; cases h
    | cons b bs =>
      simp only [charListLtB]
      exact ⟨fun _ => List.Lex.nil, fun _ => trivial⟩
  | cons a as ih =>
    intro bs
    cases bs with
    | nil =>
      simp only [charListLtB]
      constructor
      · intro h; exact absurd h (by simp)
      · intro h; cases h
    | cons b bs =>
      rw [charListLtB]
      by_cases hab : a < b
      · simp only [if_pos hab]
        exact ⟨fun _ => List.Lex.rel hab, fun _ => trivial⟩
      · by_cases hba : b < a
        · simp only [if_neg hab, if_pos hba]
          constructor
          · intro h; exact absurd h (by simp)
          · intro h
            cases h with
            | cons _ => exact absurd hba (lt_irrefl _)
            | rel h => exact absurd h hab
        · have heq : a = b := le_antisymm (not_lt.mp hba) (not_lt.mp hab)
          subst heq
          simp only [if_neg hab, if_neg hba, ih]
          constructor
          · intro h; exact List.Lex.cons h
          · intro h
            cases h with
            | cons h => exact h
            | rel h => exact absurd h hab

theorem jsStrLtB_iff_lt (a b : String) : jsStrLtB a b = true ↔ a < b := by
  rw [String.lt_iff_toList_lt]
  exact charListLtB_iff_lex a.data b.data

theorem jsStrLtB_eq_false_iff_le (a b : String) : jsStrLtB a b = false ↔ b ≤ a := by
  rw [← not_lt, ← jsStrLtB_iff_lt]
  simp

/-! ### The sorted-set order -/

theorem zleB_iff (a b : String × Int) :
    zleB a b = true ↔ (a.2 < b.2 ∨ (a.2 = b.2 ∧ a.1 ≤ b.1)) := by
  unfold zleB
  by_cases h1 : a.2 < b.2
  · simp [h1]
  · by_cases h2 : b.2 < a.2
    · have hne : ¬(a.2 = b.2) := fun h => absurd (h ▸ h2) (lt_irrefl _)
      simp [h1, h2, hne]
    · have heq : a.2 = b.2 := le_antisymm (not_lt.mp h2) (not_lt.mp h1)
      simp [h1, h2, heq, Bool.not_eq_true', jsStrLtB_eq_false_iff_le]

theorem zleB_total (a b : String × Int) : zleB a b = true ∨ zleB b a = true := by
  rw [zleB_iff, zleB_iff]
  rcases lt_trichotomy a.2 b.2 with h | h | h
  · exact Or.inl (Or.inl h)
  · rcases le_total a.1 b.1 with hle | hle
    · exact Or.inl (Or.inr ⟨h, hle⟩)
    · exact Or.inr (Or.inr ⟨h.symm, hle⟩)
  · exact Or.inr (Or.inl h)

theorem zleB_trans (a b c : String × Int) (h1 : zleB a b = true) (h2 : zleB b c = true) :
    zleB a c = true := by
  rw [zleB_iff] at h1 h2 ⊢
  rcases h1 with h1 | ⟨h1e, h1m⟩
  · rcases h2 with h2 | ⟨h2e, _⟩
    · exact Or.inl (h1.trans h2)
    · exact Or.inl (h2e ▸ h1)
  · rcases h2 with h2 | ⟨h2e, h2m⟩
    · exact Or.inl (h1e ▸ h2)
    · exact Or.inr ⟨h1e.trans h2e, h1m.trans h2m⟩

theorem score_le_of_zleB {a b : String × Int} (h : zleB a b = true) : a.2 ≤ b.2 := by
  rw [zleB_iff] at h
  rcases h with h | ⟨h, _⟩
  · exact le_of_lt h
  · exact le_of_eq h

/-! ### Step and loop preservation lemmas -/

@[simp] theorem insIndexStep_counters (t rid : String) (st : RedisState) (p : String × String) :
    (insIndexStep t rid st p).counters = st.counters := rfl

@[simp] theorem insIndexStep_hashes (t rid : String) (st : RedisState) (p : String × String) :
    (insIndexStep t rid st p).hashes = st.hashes := rfl

@[simp] theorem insIndexStep_strings (t rid : String) (st : RedisState) (p : String × String) :
    (insIndexStep t rid st p).strings = st.strings := rfl

@[simp] theorem delIndexStep_counters (t id : String) (st : RedisState) (p : String × String) :
    (delIndexStep t id st p).counters = st.counters := by
  unfold delIndexStep; split <;> rfl

@[simp] theorem delIndexStep_hashes (t id : String) (st : RedisState) (p : String × String) :
    (delIndexStep t id st p).hashes = st.hashes := by
  unfold delIndexStep; split <;> rfl

@[simp] theorem applyIndexMove_counters (t id : String) (st : RedisState)
    (m : String × String × String) : (applyIndexMove t id st m).counters = st.counters := rfl

@[simp] theorem applyIndexMove_hashes (t id : String) (st : RedisState)
    (m : String × String × String) : (applyIndexMove t id st m).hashes = st.hashes := rfl

theorem updateLoop_counters (now : Nat) (ab : Nat → Bool) (t id : String) (u : Row) :
    ∀ (fuel attempt : Nat) (s : RedisState),
      ((updateLoop now ab t id u fuel attempt s).2).counters = s.counters := by
  intro fuel
  induction fuel with
  | zero => intro att s; rfl
  | succ n ih =>
    intro att s
    rw [updateLoop]
    split
    · rfl
    · split
      · rw [ih]; rfl
      · simp only
        rw [foldl_counters_const (applyIndexMove t id) (fun st a => rfl)]
        rfl

theorem deleteLoop_counters (ab : Nat → Bool) (t id : String) :
    ∀ (fuel attempt : Nat) (s : RedisState),
      ((deleteLoop ab t id fuel attempt s).2).counters = s.counters := by
  intro fuel
  induction fuel with
  | zero => intro att s; rfl
  | succ n ih =>
    intro att s
    rw [deleteLoop]
    split
    · rfl
    · split
      · rw [ih]; rfl
      · simp only
        rw [foldl_counters_const (delIndexStep t id) (fun st a => delIndexStep_counters t id st a)]
        rfl

theorem createTable_counters (s : RedisState) (t : String) (fields : List String) :
    ((createTable s t fields).2).counters = s.counters := by
  unfold createTable
  split
  · rfl
  · split
    · rfl
    · simp only
      exact foldl_counters_const (fun st f => sadd st (schemaKey t) f) (fun st a => rfl) fields s

/-- Case analysis of `insert`: either it fails and leaves the state untouched,
or validation passed (the record's keys cover the schema and vice versa) and it
returns the string form of the incremented counter together with the success
state `insertDone`. -/
theorem insert_spec (s : RedisState) (now : Nat) (t : String) (row : Row) :
    (∃ m, insert s now t row = (.error m, s)) ∨
    (insert s now t row = (.ok (toString (ctrOf s t + 1)), insertDone s now t row) ∧
      s.sets (schemaKey t) ≠ [] ∧
      (∀ f ∈ s.sets (schemaKey t), f ∈ row.map Prod.fst) ∧
      (∀ f ∈ row.map Prod.fst, f ∈ s.sets (schemaKey t))) := by
  unfold insert
  by_cases h1 : s.sets (schemaKey t) = []
  · rw [if_pos h1]
    exact Or.inl ⟨_, rfl⟩
  · rw [if_neg h1]
    split
    · exact Or.inl ⟨_, rfl⟩
    · rename_i hmiss
      split
      · exact Or.inl ⟨_, rfl⟩
      · rename_i hextra
        refine Or.inr ⟨rfl, h1, ?_, ?_⟩
        · intro f hf
          have hh := List.find?_eq_none.mp hmiss f hf
          simpa using hh
        · intro f hf
          have hh := List.find?_eq_none.mp hextra f hf
          simpa using hh

/-- When the record's keys are exactly the schema fields, `insert` succeeds. -/
theorem insert_ok_of_valid (s : RedisState) (now : Nat) (t : String) (row : Row)
    (hschema : s.sets (schemaKey t) ≠ [])
    (h1 : ∀ f ∈ s.sets (schemaKey t), f ∈ row.map Prod.fst)
    (h2 : ∀ f ∈ row.map Prod.fst, f ∈ s.sets (schemaKey t)) :
    insert s now t row = (.ok (toString (ctrOf s t + 1)), insertDone s now t row) := by
  unfold insert
  rw [if_neg hschema]
  have hmiss : (s.sets (schemaKey t)).find? (fun f => !((row.map Prod.fst).contains f)) = none := by
    rw [List.find?_eq_none]
    intro f hf
    simp [h1 f hf]
  have hextra : (row.map Prod.fst).find? (fun f => !((s.sets (schemaKey t)).contains f)) = none := by
    rw [List.find?_eq_none]
    intro f hf
    simp [h2 f hf]
  rw [hmiss, hextra]
  rfl

theorem insertDone_counters (s : RedisState) (now : Nat) (t : String) (row : Row) :
    (insertDone s now t row).counters =
      Function.update s.counters (nextIdKey t) (some (ctrOf s t + 1)) := by
  unfold insertDone
  rw [foldl_counters_const (insIndexStep t _) (fun st a => rfl)]
  rfl

theorem insertDone_ctrOf (s : RedisState) (now : Nat) (t : String) (row : Row) :
    ctrOf (insertDone s now t row) t = ctrOf s t + 1 := by
  unfold ctrOf
  rw [insertDone_counters, Function.update_same]
  rfl

theorem updateLoop_all_abort (now : Nat) (ab : Nat → Bool) (t id : String) (u : Row) :
    ∀ (fuel attempt : Nat) (s : RedisState),
      (∀ i, attempt ≤ i → i < attempt + fuel → ab i = true) →
      s.hashes (rowKey t id) ≠ [] →
      (updateLoop now ab t id u fuel attempt s).1 = .error updateRetryMsg := by
  intro fuel
  induction fuel with
  | zero => intro att s _ _; rfl
  | succ n ih =>
    intro att s hab hrow
    rw [updateLoop]
    rw [if_neg (by simpa using hrow)]
    rw [if_pos (by exact hab att le_rfl (by omega))]
    exact ih (att + 1) _ (fun i h1 h2 => hab i (by omega) (by omega)) (by simpa using hrow)

theorem deleteLoop_all_abort (ab : Nat → Bool) (t id : String) :
    ∀ (fuel attempt : Nat) (s : RedisState),
      (∀ i, attempt ≤ i → i < attempt + fuel → ab i = true) →
      s.hashes (rowKey t id) ≠ [] →
      (deleteLoop ab t id fuel attempt s).1 = .error deleteRetryMsg := by
  intro fuel
  induction fuel with
  | zero => intro att s _ _; rfl
  | succ n ih =>
    intro att s hab hrow
    rw [deleteLoop]
    rw [if_neg (by simpa using hrow)]
    rw [if_pos (by exact hab att le_rfl (by omega))]
    exact ih (att + 1) _ (fun i h1 h2 => hab i (by omega) (by omega)) (by simpa using hrow)

theorem refreshLoop_all_abort (sid : String) (ttl : Nat) (ab : Nat → Bool) :
    ∀ (fuel attempt : Nat) (s : RedisState) (u : String),
      (∀ i, attempt ≤ i → i < attempt + fuel → ab i = true) →
      s.strings (sessionKey sid) = some u → u ≠ "" →
      (refreshLoop sid ttl ab fuel attempt s).1 = .error refreshRetryMsg := by
  intro fuel
  induction fuel with
  | zero => intro att s u _ _ _; rfl
  | succ n ih =>
    intro att s u hab hs hu
    rw [refreshLoop]
    have hs1 : (watchKey s (sessionKey sid)).strings (sessionKey sid) = some u := hs
    rw [hs1]
    simp only [if_neg hu]
    rw [if_pos (by exact hab att le_rfl (by omega))]
    exact ih (att + 1) _ u (fun i h1 h2 => hab i (by omega) (by omega)) hs hu

theorem insertDone_hashes (s : RedisState) (now : Nat) (t : String) (row : Row) :
    (insertDone s now t row).hashes =
      Function.update s.hashes (rowKey t (toString (ctrOf s t + 1)))
        (hmsetList (s.hashes (rowKey t (toString (ctrOf s t + 1))))
          (row ++ [("_created_at", toString now), ("_updated_at", toString now)])) := by
  unfold insertDone
  rw [foldl_hashes_const (insIndexStep t _) (fun st a => rfl)]
  rfl

theorem srem_not_mem {st : RedisState} {k : String} {x : String} (k' y : String)
    (h : x ∉ st.sets k) : x ∉ (srem st k' y).sets k := by
  rw [srem_sets]
  by_cases hk : k = k'
  · subst hk
    rw [Function.update_same]
    exact fun hmem => h (List.erase_subset _ _ hmem)
  · rw [Function.update_noteq hk]
    exact h

theorem delIndexStep_not_mem {t id : String} {st : RedisState} {k : String}
    (p : String × String) (h : id ∉ st.sets k) : id ∉ (delIndexStep t id st p).sets k := by
  unfold delIndexStep
  split
  · exact h
  · exact srem_not_mem _ _ h

theorem srem_nodup {st : RedisState} (k' y : String) (h : ∀ k, (st.sets k).Nodup) :
    ∀ k, ((srem st k' y).sets k).Nodup := by
  intro k
  rw [srem_sets]
  by_cases hk : k = k'
  · subst hk
    rw [Function.update_same]
    exact (h _).erase y
  · rw [Function.update_noteq hk]
    exact h k

theorem delIndexStep_nodup {t id : String} {st : RedisState} (p : String × String)
    (h : ∀ k, (st.sets k).Nodup) : ∀ k, ((delIndexStep t id st p).sets k).Nodup := by
  unfold delIndexStep
  split
  · exact h
  · exact srem_nodup _ _ h

theorem foldl_delIndexStep_removes (t id : String) :
    ∀ (entries : List (String × String)) (st : RedisState),
      (∀ k, (st.sets k).Nodup) →
      ∀ f v, startsWithUnderscore f = false → (f, v) ∈ entries →
        id ∉ (entries.foldl (delIndexStep t id) st).sets (indexKey t f v) := by
  intro entries
  induction entries with
  | nil => intro st _ f v _ hmem; exact absurd hmem (List.not_mem_nil _)
  | cons p ps ih =>
    intro st hnd f v hf hmem
    rw [List.foldl_cons]
    rcases List.mem_cons.mp hmem with heq | hmem'
    · have hstep : delIndexStep t id st p = srem st (indexKey t f v) id := by
        rw [← heq]
        unfold delIndexStep
        rw [if_neg (by rw [hf]; exact Bool.false_ne_true)]
      rw [hstep]
      have hout : id ∉ (srem st (indexKey t f v) id).sets (indexKey t f v) := by
        rw [srem_sets, Function.update_same]
        exact (hnd _).not_mem_erase
      exact foldl_sets_not_mem (delIndexStep t id) id
        (fun st' a k h => delIndexStep_not_mem a h) ps _ _ hout
    · exact ih (delIndexStep t id st p) (delIndexStep_nodup p hnd) f v hf hmem'

theorem updateLoop_ok_hashes (now : Nat) (ab : Nat → Bool) (t id : String) (u : Row) :
    ∀ (fuel attempt : Nat) (s : RedisState),
      (updateLoop now ab t id u fuel attempt s).1 = .ok true →
      ((updateLoop now ab t id u fuel attempt s).2).hashes (rowKey t id) =
        hmsetList (s.hashes (rowKey t id)) (u ++ [("_updated_at", toString now)]) := by
  intro fuel
  induction fuel with
  | zero => intro att s h; exact absurd h (by simp [updateLoop])
  | succ n ih =>
    intro att s h
    by_cases hrow : s.hashes (rowKey t id) = []
    · rw [updateLoop, if_pos (by simpa using hrow)] at h
      simp at h
    · rw [updateLoop, if_neg (by simpa using hrow)] at h ⊢
      by_cases habort : ab att = true
      · rw [if_pos habort] at h ⊢
        simpa using ih (att + 1) _ h
      · rw [if_neg habort] at h ⊢
        simp only
        rw [foldl_hashes_const (applyIndexMove t id) (fun st a => rfl)]
        simp [Function.update_same]

theorem deleteLoop_ok_props (ab : Nat → Bool) (t id : String) :
    ∀ (fuel attempt : Nat) (s : RedisState),
      (∀ k, (s.sets k).Nodup) →
      (deleteLoop ab t id fuel attempt s).1 = .ok true →
      ((deleteLoop ab t id fuel attempt s).2).hashes (rowKey t id) = [] ∧
      id ∉ ((deleteLoop ab t id fuel attempt s).2).sets (rowsSetKey t) ∧
      (∀ f v, startsWithUnderscore f = false →
        rlookup (s.hashes (rowKey t id)) f = some v →
        id ∉ ((deleteLoop ab t id fuel attempt s).2).sets (indexKey t f v)) := by
  intro fuel
  induction fuel with
  | zero => intro att s _ h; exact absurd h (by simp [deleteLoop])
  | succ n ih =>
    intro att s hnd h
    by_cases hrow : s.hashes (rowKey t id) = []
    · rw [deleteLoop, if_pos (by simpa using hrow)] at h
      simp at h
    · rw [deleteLoop, if_neg (by simpa using hrow)] at h ⊢
      by_cases habort : ab att = true
      · rw [if_pos habort] at h ⊢
        simpa using ih (att + 1) _ (by simpa using hnd) h
      · rw [if_neg habort] at h ⊢
        simp only
        set s2 := clearWatch (setHash (srem (watchKey s (rowKey t id)) (rowsSetKey t) id)
          (rowKey t id) []) with hs2
        have hnd2 : ∀ k, (s2.sets k).Nodup := by
          intro k
          rw [hs2]
          exact srem_nodup (rowsSetKey t) id (by simpa using hnd) k
        refine ⟨?_, ?_, ?_⟩
        · rw [foldl_hashes_const (delIndexStep t id) (fun st a => delIndexStep_hashes t id st a)]
          rw [hs2]
          simp [Function.update_same]
        · have hout : id ∉ s2.sets (rowsSetKey t) := by
            rw [hs2]
            show id ∉ ((srem (watchKey s (rowKey t id)) (rowsSetKey t) id).sets (rowsSetKey t))
            rw [srem_sets, Function.update_same]
            exact ((by simpa using hnd (rowsSetKey t) : ((watchKey s (rowKey t id)).sets (rowsSetKey t)).Nodup)).not_mem_erase
          exact foldl_sets_not_mem (delIndexStep t id) id
            (fun st' a k hh => delIndexStep_not_mem a hh) _ _ _ hout
        · intro f v hf hl
          exact foldl_delIndexStep_removes t id _ s2 hnd2 f v hf (rlookup_mem hl)

/-- On an attempt whose transaction is not aborted, with the row present,
`updateLoop` returns true and produces exactly the hash write followed by the
index moves of the fields whose old value is truthy and different. -/
theorem updateLoop_first (now : Nat) (ab : Nat → Bool) (t id : String) (u : Row)
    (fuel att : Nat) (s : RedisState)
    (hrow : s.hashes (rowKey t id) ≠ []) (hab : ab att = false) :
    updateLoop now ab t id u (fuel + 1) att s =
      (.ok true,
        (u.filterMap (fun p =>
          match rlookup (s.hashes (rowKey t id)) p.1 with
          | some oldValue =>
            if oldValue ≠ "" ∧ oldValue ≠ p.2 then some (p.1, oldValue, p.2) else none
          | none => none)).foldl (applyIndexMove t id)
          (clearWatch (setHash (watchKey s (rowKey t id)) (rowKey t id)
            (hmsetList (s.hashes (rowKey t id)) (u ++ [("_updated_at", toString now)]))))) := by
  rw [updateLoop, if_neg (by simpa using hrow), if_neg (by simp [hab])]
  rfl

/-- On an attempt whose transaction is not aborted, with the row present,
`deleteLoop` returns true and produces the membership/hash removal followed by
the index cleanup of all non-underscore fields. -/
theorem deleteLoop_first (ab : Nat → Bool) (t id : String) (fuel att : Nat) (s : RedisState)
    (hrow : s.hashes (rowKey t id) ≠ []) (hab : ab att = false) :
    deleteLoop ab t id (fuel + 1) att s =
      (.ok true,
        (s.hashes (rowKey t id)).foldl (delIndexStep t id)
          (clearWatch (setHash (srem (watchKey s (rowKey t id)) (rowsSetKey t) id)
            (rowKey t id) []))) := by
  rw [deleteLoop, if_neg (by simpa using hrow), if_neg (by simp [hab])]
  rfl

/-- Updating with only schema-field keys preserves the row-shape invariant. -/
theorem rowConforms_hmset {schemaFields : List String} {h u : Row} {ts : String}
    (hc : rowConforms schemaFields h)
    (hu : ∀ f ∈ u.map Prod.fst, f ∈ schemaFields) :
    rowConforms schemaFields (hmsetList h (u ++ [("_updated_at", ts)])) := by
  obtain ⟨h1, h2, h3, h4⟩ := hc
  refine ⟨?_, ?_, ?_, ?_⟩
  · intro f hf
    rcases mem_keys_hmsetList.mp hf with hf | hf
    · exact h1 f hf
    · rw [List.map_append] at hf
      rcases List.mem_append.mp hf with hf | hf
      · exact Or.inl (hu f hf)
      · simp only [List.map_cons, List.map_nil, List.mem_singleton] at hf
        subst hf
        exact Or.inr (by simp [isSystemField])
  · intro f hf
    rw [rlookup_hmsetList_isSome]
    exact Or.inl (h2 f hf)
  · rw [rlookup_hmsetList_isSome]
    exact Or.inl h3
  · rw [rlookup_hmsetList_isSome]
    right
    rw [List.map_append]
    exact List.mem_append.mpr (Or.inr (by simp))

/-- The hash written by a successful insert satisfies the row-shape invariant. -/
theorem rowConforms_insertHash {schemaFields : List String} {row : Row} {ts : String}
    (h1 : ∀ f ∈ schemaFields, f ∈ row.map Prod.fst)
    (h2 : ∀ f ∈ row.map Prod.fst, f ∈ schemaFields) :
    rowConforms schemaFields
      (hmsetList [] (row ++ [("_created_at", ts), ("_updated_at", ts)])) := by
  refine ⟨?_, ?_, ?_, ?_⟩
  · intro f hf
    rcases mem_keys_hmsetList.mp hf with hf | hf
    · simp at hf
    · rw [List.map_append] at hf
      rcases List.mem_append.mp hf with hf | hf
      · exact Or.inl (h2 f hf)
      · right
        have hff : f = "_created_at" ∨ f = "_updated_at" := by simpa using hf
        rcases hff with hff | hff <;> simp [isSystemField, hff]
  · intro f hf
    rw [rlookup_hmsetList_isSome]
    right
    rw [List.map_append]
    exact List.mem_append.mpr (Or.inl (h1 f hf))
  · rw [rlookup_hmsetList_isSome]
    right
    rw [List.map_append]
    exact List.mem_append.mpr (Or.inr (by simp))
  · rw [rlookup_hmsetList_isSome]
    right
    rw [List.map_append]
    exact List.mem_append.mpr (Or.inr (by simp))

/-! ### The comparator versus the string order -/

theorem jsCompare_le_iff (x y : String) : jsCompare (some x) (some y) ≤ 0 ↔ x ≤ y := by
  simp only [jsCompare]
  by_cases hl : jsStrLtB x y = true
  · rw [if_pos hl]
    exact iff_of_true (by norm_num) (le_of_lt ((jsStrLtB_iff_lt x y).mp hl))
  · by_cases hg : jsStrLtB y x = true
    · rw [if_neg hl, if_pos hg]
      refine iff_of_false (by norm_num) ?_
      exact not_le_of_lt ((jsStrLtB_iff_lt y x).mp hg)
    · rw [if_neg hl, if_neg hg]
      refine iff_of_true le_rfl ?_
      exact le_of_not_lt (fun hc => hg ((jsStrLtB_iff_lt y x).mpr hc))

theorem jsCompare_neg_le_iff (x y : String) : -jsCompare (some x) (some y) ≤ 0 ↔ y ≤ x := by
  simp only [jsCompare]
  by_cases hl : jsStrLtB x y = true
  · rw [if_pos hl]
    refine iff_of_false (by norm_num) ?_
    exact not_le_of_lt ((jsStrLtB_iff_lt x y).mp hl)
  · by_cases hg : jsStrLtB y x = true
    · rw [if_neg hl, if_pos hg]
      exact iff_of_true (by norm_num) (le_of_lt ((jsStrLtB_iff_lt y x).mp hg))
    · rw [if_neg hl, if_neg hg]
      refine iff_of_true (by norm_num) ?_
      exact le_of_not_lt (fun hc => hl ((jsStrLtB_iff_lt x y).mpr hc))

theorem rowCmp_le_iff (o : QueryOptions) (f : String) (a b : String × Row)
    (ha : (rlookup a.2 f).isSome = true) (hb : (rlookup b.2 f).isSome = true) :
    (rowCmp o f a b ≤ 0) ↔
      (if o.sortOrder = some "desc" then sortVal f b ≤ sortVal f a
        else sortVal f a ≤ sortVal f b) := by
  obtain ⟨x, hx⟩ := Option.isSome_iff_exists.mp ha
  obtain ⟨y, hy⟩ := Option.isSome_iff_exists.mp hb
  unfold rowCmp sortVal
  rw [hx, hy]
  by_cases hd : o.sortOrder = some "desc"
  · rw [if_pos hd, if_pos hd]
    simpa using jsCompare_neg_le_iff x y
  · rw [if_neg hd, if_neg hd]
    simpa using jsCompare_le_iff x y

/-! ### Claim theorems -/

/-- Claim C3: for a table with a schema, inserting a record whose key set is
not exactly the schema's field set always fails with an error naming an
offending field (a missing schema field, or an extra non-schema field), and
the failure leaves the entire state unchanged — no id is minted, no row hash
is written, no membership set or index is touched. -/
theorem c3_insert_validation (s : RedisState) (now : Nat) (t : String) (row : Row)
    (hschema : s.sets (schemaKey t) ≠ [])
    (hmismatch : ¬((∀ f ∈ s.sets (schemaKey t), f ∈ row.map Prod.fst) ∧
      (∀ f ∈ row.map Prod.fst, f ∈ s.sets (schemaKey t)))) :
    ∃ m g, insert s now t row = (.error m, s) ∧
      ((g ∈ s.sets (schemaKey t) ∧ g ∉ row.map Prod.fst ∧ m = missingFieldMsg t g) ∨
       (g ∈ row.map Prod.fst ∧ g ∉ s.sets (schemaKey t) ∧ m = extraFieldMsg t g)) := by
  unfold insert
  rw [if_neg hschema]
  cases hf : (s.sets (schemaKey t)).find? (fun f => !((row.map Prod.fst).contains f)) with
  | some g =>
    refine ⟨missingFieldMsg t g, g, ?_, Or.inl ⟨List.mem_of_find?_eq_some hf, ?_, rfl⟩⟩
    · rfl
    · have hp := List.find?_some hf
      simpa using hp
  | none =>
    cases hg : (row.map Prod.fst).find? (fun f => !((s.sets (schemaKey t)).contains f)) with
    | some g =>
      refine ⟨extraFieldMsg t g, g, ?_, Or.inr ⟨List.mem_of_find?_eq_some hg, ?_, rfl⟩⟩
      · rfl
      · have hp := List.find?_some hg
        simpa using hp
    | none =>
      exfalso
      apply hmismatch
      constructor
      · intro f hfm
        have hp := List.find?_eq_none.mp hf f hfm
        simpa using hp
      · intro f hfm
        have hp := List.find?_eq_none.mp hg f hfm
        simpa using hp

theorem c3_witness :
    ∃ m g, insert demoState 0 "t" [("b", "1")] = (.error m, demoState) ∧
      ((g ∈ demoState.sets (schemaKey "t") ∧ g ∉ [("b", "1")].map Prod.fst ∧
          m = missingFieldMsg "t" g) ∨
       (g ∈ [("b", "1")].map Prod.fst ∧ g ∉ demoState.sets (schemaKey "t") ∧
          m = extraFieldMsg "t" g)) :=
  c3_insert_validation demoState 0 "t" [("b", "1")] (by decide) (by decide)

/-- Claim C6: when the conditional transaction is aborted by concurrent
modification on every attempt, update, delete and refreshSession retry at most
the fixed bound of `maxRetries = 5` attempts and then surface the
concurrency-exhausted error — an exception, never a silent success or a silent
"not found".  The abort oracle is only constrained on attempts 0..4: whatever
would happen on a sixth attempt is irrelevant, the operation has already
failed. -/
theorem c6_retry_exhaustion (s : RedisState) (now ttl : Nat) (ab : Nat → Bool)
    (t id sid u : String) (upd : Row)
    (hrow : s.hashes (rowKey t id) ≠ [])
    (hsess : s.strings (sessionKey sid) = some u) (hu : u ≠ "")
    (hab : ∀ i, i < maxRetries → ab i = true) :
    (update s now ab t id upd).1 = .error updateRetryMsg ∧
    (delete s ab t id).1 = .error deleteRetryMsg ∧
    (refreshSession s ab sid ttl).1 = .error refreshRetryMsg := by
  refine ⟨?_, ?_, ?_⟩
  · exact updateLoop_all_abort now ab t id upd maxRetries 0 s
      (fun i hi1 hi2 => hab i (by omega)) hrow
  · exact deleteLoop_all_abort ab t id maxRetries 0 s
      (fun i hi1 hi2 => hab i (by omega)) hrow
  · exact refreshLoop_all_abort sid ttl ab maxRetries 0 s u
      (fun i hi1 hi2 => hab i (by omega)) hsess hu

theorem c6_witness :
    (update demoState 0 (fun _ => true) "t" "1" [("a", "y")]).1 = .error updateRetryMsg ∧
    (delete demoState (fun _ => true) "t" "1").1 = .error deleteRetryMsg ∧
    (refreshSession demoState (fun _ => true) "s" 60).1 = .error refreshRetryMsg :=
  c6_retry_exhaustion demoState 0 60 (fun _ => true) "t" "1" "s" "u1" [("a", "y")]
    (by decide) (by decide) (by decide) (by decide)

/-- Claim C7: when the target row (for update and delete) or session (for
refreshSession) is absent, the operation releases the watch and returns false
("not found") rather than raising an error, and leaves every data component of
the state unchanged (`clearWatch s` is `s` with only the watch list emptied). -/
theorem c7_not_found_returns_false (s : RedisState) (now ttl : Nat) (ab : Nat → Bool)
    (t id sid : String) (upd : Row)
    (hrow : s.hashes (rowKey t id) = [])
    (hsess : s.strings (sessionKey sid) = none) :
    update s now ab t id upd = (.ok false, clearWatch s) ∧
    delete s ab t id = (.ok false, clearWatch s) ∧
    refreshSession s ab sid ttl = (.ok false, clearWatch s) := by
  refine ⟨?_, ?_, ?_⟩
  · show updateLoop now ab t id upd (4 + 1) 0 s = (.ok false, clearWatch s)
    rw [updateLoop, if_pos (by simpa using hrow)]
    rfl
  · show deleteLoop ab t id (4 + 1) 0 s = (.ok false, clearWatch s)
    rw [deleteLoop, if_pos (by simpa using hrow)]
    rfl
  · show refreshLoop sid ttl ab (4 + 1) 0 s = (.ok false, clearWatch s)
    rw [refreshLoop]
    rw [show (watchKey s (sessionKey sid)).strings (sessionKey sid) = none from hsess]
    rfl

theorem c7_witness :
    update emptyState 0 (fun _ => false) "t" "9" [("a", "b")] = (.ok false, clearWatch emptyState) ∧
    delete emptyState (fun _ => false) "t" "9" = (.ok false, clearWatch emptyState) ∧
    refreshSession emptyState (fun _ => false) "nosuch" 60 = (.ok false, clearWatch emptyState) :=
  c7_not_found_returns_false emptyState 0 60 (fun _ => false) "t" "9" "nosuch" [("a", "b")]
    rfl rfl

/-- Claim C2 (amended): the row written by a successful insert has exactly the
schema fields plus the two system fields; and update preserves that shape
whenever every key of the partial record is a schema field.  (As stated the
claim is false: update performs no schema validation, so an update containing
a non-schema key writes an untracked extra field — see the counterexample.) -/
theorem c2_row_shape_invariant :
    (∀ (s : RedisState) (now : Nat) (t : String) (row : Row) (rid : String)
        (s' : RedisState),
      insert s now t row = (.ok rid, s') →
      s.hashes (rowKey t rid) = [] →
      rowConforms (s.sets (schemaKey t)) (s'.hashes (rowKey t rid))) ∧
    (∀ (schemaFields : List String) (s : RedisState) (now : Nat) (ab : Nat → Bool)
        (t id : String) (upd : Row),
      (update s now ab t id upd).1 = .ok true →
      (∀ f ∈ upd.map Prod.fst, f ∈ schemaFields) →
      rowConforms schemaFields (s.hashes (rowKey t id)) →
      rowConforms schemaFields (((update s now ab t id upd).2).hashes (rowKey t id))) := by
  constructor
  · intro s now t row rid s' heq hfresh
    rcases insert_spec s now t row with ⟨m, hm⟩ | ⟨hok, hne, h1, h2⟩
    · rw [hm] at heq
      simp at heq
    · rw [hok] at heq
      have hrid : rid = toString (ctrOf s t + 1) := by
        have hpair := (Prod.mk.injEq _ _ _ _).mp heq
        have hexc := hpair.1
        exact (Except.ok.inj hexc).symm
      have hs' : s' = insertDone s now t row := by
        have hpair := (Prod.mk.injEq _ _ _ _).mp heq
        exact hpair.2.symm
      subst hrid hs'
      rw [insertDone_hashes, Function.update_same, hfresh]
      exact rowConforms_insertHash h1 h2
  · intro schemaFields s now ab t id upd hok hkeys hc
    have hh : ((update s now ab t id upd).2).hashes (rowKey t id) =
        hmsetList (s.hashes (rowKey t id)) (upd ++ [("_updated_at", toString now)]) :=
      updateLoop_ok_hashes now ab t id upd maxRetries 0 s hok
    rw [hh]
    exact rowConforms_hmset hc hkeys

/-- Claim C2 counterexample: starting from a conforming state, a successful
update whose partial record contains the non-schema key "z" leaves the row
hash with an extra untracked field, so the invariant does not survive "update
with an arbitrary partial record". -/
theorem c2_counterexample :
    rowConforms (demoState.sets (schemaKey "t")) (demoState.hashes (rowKey "t" "1")) ∧
    (update demoState 9 (fun _ => false) "t" "1" [("z", "q")]).1 = .ok true ∧
    ¬ rowConforms (demoState.sets (schemaKey "t"))
      (((update demoState 9 (fun _ => false) "t" "1" [("z", "q")]).2).hashes
        (rowKey "t" "1")) := by
  exact ⟨by decide, by decide, by decide⟩

theorem c2_witness :
    rowConforms (demoState.sets (schemaKey "t"))
      (((update demoState 9 (fun _ => false) "t" "1" [("a", "y")]).2).hashes
        (rowKey "t" "1")) :=
  c2_row_shape_invariant.2 (demoState.sets (schemaKey "t")) demoState 9 (fun _ => false)
    "t" "1" [("a", "y")] (by decide) (by decide) (by decide)

theorem mintedIds_spec (t : String) : ∀ (ops : List TableOp) (s : RedisState),
    ∃ ns : List Nat, mintedIds t s ops = ns.map (fun n => toString n) ∧
      ns.Pairwise (· < ·) ∧ ∀ n ∈ ns, ctrOf s t < n := by
  intro ops
  induction ops with
  | nil => intro s; exact ⟨[], rfl, List.Pairwise.nil, by simp⟩
  | cons op ops ih =>
    intro s
    cases op with
    | ins now row =>
      rcases insert_spec s now t row with ⟨m, hm⟩ | ⟨heq, _, _, _⟩
      · obtain ⟨ns, hns, hp, hb⟩ := ih s
        refine ⟨ns, ?_, hp, hb⟩
        simpa [mintedIds, stepOp, hm, Except.toOption] using hns
      · obtain ⟨ns, hns, hp, hb⟩ := ih (insertDone s now t row)
        refine ⟨(ctrOf s t + 1) :: ns, ?_, ?_, ?_⟩
        · simpa [mintedIds, stepOp, heq, Except.toOption] using hns
        · refine List.Pairwise.cons ?_ hp
          intro n hn
          have hbn := hb n hn
          rw [insertDone_ctrOf] at hbn
          omega
        · intro n hn
          rcases List.mem_cons.mp hn with rfl | hn
          · omega
          · have hbn := hb n hn
            rw [insertDone_ctrOf] at hbn
            omega
    | upd now ab id u =>
      obtain ⟨ns, hns, hp, hb⟩ := ih ((update s now ab t id u).2)
      refine ⟨ns, by simpa [mintedIds, stepOp] using hns, hp, ?_⟩
      intro n hn
      have hbn := hb n hn
      have hcc : ((update s now ab t id u).2).counters = s.counters :=
        updateLoop_counters now ab t id u maxRetries 0 s
      have hctr : ctrOf ((update s now ab t id u).2) t = ctrOf s t := by
        unfold ctrOf
        rw [hcc]
      rwa [hctr] at hbn
    | del ab id =>
      obtain ⟨ns, hns, hp, hb⟩ := ih ((delete s ab t id).2)
      refine ⟨ns, by simpa [mintedIds, stepOp] using hns, hp, ?_⟩
      intro n hn
      have hbn := hb n hn
      have hcc : ((delete s ab t id).2).counters = s.counters :=
        deleteLoop_counters ab t id maxRetries 0 s
      have hctr : ctrOf ((delete s ab t id).2) t = ctrOf s t := by
        unfold ctrOf
        rw [hcc]
      rwa [hctr] at hbn
    | mkTable fs =>
      obtain ⟨ns, hns, hp, hb⟩ := ih ((createTable s t fs).2)
      refine ⟨ns, by simpa [mintedIds, stepOp] using hns, hp, ?_⟩
      intro n hn
      have hbn := hb n hn
      have hctr : ctrOf ((createTable s t fs).2) t = ctrOf s t := by
        unfold ctrOf
        rw [createTable_counters]
      rwa [hctr] at hbn

/-- Claim C8 (amended): across any sequence of createTable / insert / update /
delete operations on a table, the ids returned by the successful inserts are
the decimal forms of a strictly increasing sequence of integers — so ids are
strictly increasing and never reused, in particular deletes never cause reuse.
(As stated the claim is false: the public `initNextId` resets the counter and
forces reuse — see the counterexample.) -/
theorem c8_ids_strictly_increasing (t : String) (s : RedisState) (ops : List TableOp) :
    ∃ ns : List Nat, mintedIds t s ops = ns.map (fun n => toString n) ∧
      ns.Pairwise (· < ·) := by
  obtain ⟨ns, h1, h2, _⟩ := mintedIds_spec t ops s
  exact ⟨ns, h1, h2⟩

/-- Claim C8 counterexample: insert mints id "1"; after `initNextId` (which
resets the counter to 0) the next insert mints "1" again — a previously issued
id is reused, so the claim as stated (over the whole public interface) fails. -/
theorem c8_counterexample :
    (insert ((createTable emptyState "t" ["a"]).2) 0 "t" [("a", "x")]).1 = .ok "1" ∧
    (insert (initNextId ((insert ((createTable emptyState "t" ["a"]).2) 0 "t"
        [("a", "x")]).2) "t") 1 "t" [("a", "y")]).1 = .ok "1" := by
  exact ⟨by decide, by decide⟩

/-- Claim C1 (amended): after a successful `update(t, id, {f: v2})` where the
row's previous value v1 of f was truthy (nonempty) and v1 ≠ v2, the id has
been removed from index (t, f, v1) and added to index (t, f, v2), and
`countByField` on both values reflects the move immediately.  (As stated the
claim is false for the reachable previous value v1 = "": the source's
truthiness test skips the index move — see the counterexample.) -/
theorem c1_update_moves_index (s : RedisState) (now : Nat) (ab : Nat → Bool)
    (t id f v1 v2 : String)
    (hab : ab 0 = false)
    (hval : rlookup (s.hashes (rowKey t id)) f = some v1)
    (hv1 : v1 ≠ "") (hne : v1 ≠ v2)
    (hmem : id ∈ s.sets (indexKey t f v1))
    (hnotmem : id ∉ s.sets (indexKey t f v2))
    (hnd : (s.sets (indexKey t f v1)).Nodup) :
    (update s now ab t id [(f, v2)]).1 = .ok true ∧
    id ∉ ((update s now ab t id [(f, v2)]).2).sets (indexKey t f v1) ∧
    id ∈ ((update s now ab t id [(f, v2)]).2).sets (indexKey t f v2) ∧
    countByField ((update s now ab t id [(f, v2)]).2) t f v1 + 1 = countByField s t f v1 ∧
    countByField ((update s now ab t id [(f, v2)]).2) t f v2 = countByField s t f v2 + 1 := by
  have hrow : s.hashes (rowKey t id) ≠ [] := by
    intro hh
    rw [hh] at hval
    simp [rlookup] at hval
  have hkey : indexKey t f v1 ≠ indexKey t f v2 := fun hk => hne (indexKey_val_inj hk)
  have heq : update s now ab t id [(f, v2)] =
      (.ok true,
        ([(f, v2)].filterMap (fun p =>
          match rlookup (s.hashes (rowKey t id)) p.1 with
          | some oldValue =>
            if oldValue ≠ "" ∧ oldValue ≠ p.2 then some (p.1, oldValue, p.2) else none
          | none => none)).foldl (applyIndexMove t id)
          (clearWatch (setHash (watchKey s (rowKey t id)) (rowKey t id)
            (hmsetList (s.hashes (rowKey t id))
              ([(f, v2)] ++ [("_updated_at", toString now)]))))) :=
    updateLoop_first now ab t id [(f, v2)] 4 0 s hrow hab
  have hfm : ([(f, v2)] : Row).filterMap (fun p =>
      match rlookup (s.hashes (rowKey t id)) p.1 with
      | some oldValue =>
        if oldValue ≠ "" ∧ oldValue ≠ p.2 then some (p.1, oldValue, p.2) else none
      | none => none) = [(f, v1, v2)] := by
    simp only [List.filterMap_cons, List.filterMap_nil, hval]
    rw [if_pos ⟨hv1, hne⟩]
  rw [hfm, List.foldl_cons, List.foldl_nil] at heq
  have h1 : ((update s now ab t id [(f, v2)]).2).sets (indexKey t f v1) =
      (s.sets (indexKey t f v1)).erase id := by
    rw [heq]
    simp only [applyIndexMove]
    rw [sadd_sets, Function.update_noteq hkey, srem_sets, Function.update_same]
    rfl
  have h2 : ((update s now ab t id [(f, v2)]).2).sets (indexKey t f v2) =
      saddList (s.sets (indexKey t f v2)) id := by
    rw [heq]
    simp only [applyIndexMove]
    rw [sadd_sets, Function.update_same, srem_sets, Function.update_noteq (Ne.symm hkey)]
    rfl
  refine ⟨by rw [heq], ?_, ?_, ?_, ?_⟩
  · rw [h1]
    exact hnd.not_mem_erase
  · rw [h2]
    exact mem_saddList.mpr (Or.inr rfl)
  · unfold countByField
    rw [h1, List.length_erase_of_mem hmem]
    have hpos : 0 < (s.sets (indexKey t f v1)).length := List.length_pos_of_mem hmem
    omega
  · unfold countByField
    rw [h2, saddList_length_of_not_mem hnotmem]

/-- Claim C1 counterexample: with the row's previous value a = "" (reachable:
insert accepts empty strings and indexes them), a successful update of a to
"x" performs no index move at all — the id is not added to index (t, a, "x")
and remains in index (t, a, ""), even though the hash now holds a = "x". -/
theorem c1_counterexample :
    (update demoStateEmptyVal 9 (fun _ => false) "t" "1" [("a", "x")]).1 = .ok true ∧
    "1" ∉ ((update demoStateEmptyVal 9 (fun _ => false) "t" "1" [("a", "x")]).2).sets
      (indexKey "t" "a" "x") ∧
    "1" ∈ ((update demoStateEmptyVal 9 (fun _ => false) "t" "1" [("a", "x")]).2).sets
      (indexKey "t" "a" "") ∧
    rlookup (((update demoStateEmptyVal 9 (fun _ => false) "t" "1" [("a", "x")]).2).hashes
      (rowKey "t" "1")) "a" = some "x" := by
  exact ⟨by decide, by decide, by decide, by decide⟩

theorem c1_witness :
    (update demoState 9 (fun _ => false) "t" "1" [("a", "y")]).1 = .ok true ∧
    "1" ∉ ((update demoState 9 (fun _ => false) "t" "1" [("a", "y")]).2).sets
      (indexKey "t" "a" "x") ∧
    "1" ∈ ((update demoState 9 (fun _ => false) "t" "1" [("a", "y")]).2).sets
      (indexKey "t" "a" "y") ∧
    countByField ((update demoState 9 (fun _ => false) "t" "1" [("a", "y")]).2) "t" "a" "x" + 1 =
      countByField demoState "t" "a" "x" ∧
    countByField ((update demoState 9 (fun _ => false) "t" "1" [("a", "y")]).2) "t" "a" "y" =
      countByField demoState "t" "a" "y" + 1 :=
  c1_update_moves_index demoState 9 (fun _ => false) "t" "1" "a" "x" "y"
    (by decide) (by decide) (by decide) (by decide) (by decide) (by decide) (by decide)

/-- Claim C4 (amended): for a schema that does not contain the system fields,
a successful insert of a record matching the schema exactly followed by
getById returns a record that agrees with the input on every input key, has
both _created_at and _updated_at equal to the insertion timestamp, and has no
other field.  (As stated the claim is false when the schema itself contains
"_created_at": the timestamp spread overwrites the record's value — see the
counterexample.) -/
theorem c4_insert_then_getById (s : RedisState) (now : Nat) (t : String) (row : Row)
    (hschema : s.sets (schemaKey t) ≠ [])
    (h1 : ∀ f ∈ s.sets (schemaKey t), f ∈ row.map Prod.fst)
    (h2 : ∀ f ∈ row.map Prod.fst, f ∈ s.sets (schemaKey t))
    (hnodup : (row.map Prod.fst).Nodup)
    (hca : "_created_at" ∉ row.map Prod.fst)
    (hua : "_updated_at" ∉ row.map Prod.fst)
    (hfresh : s.hashes (rowKey t (toString (ctrOf s t + 1))) = []) :
    insert s now t row = (.ok (toString (ctrOf s t + 1)), insertDone s now t row) ∧
    ∃ h, getById (insertDone s now t row) t (toString (ctrOf s t + 1)) = some h ∧
      ∀ g, rlookup h g =
        if g = "_created_at" ∨ g = "_updated_at" then some (toString now)
        else rlookup row g := by
  refine ⟨insert_ok_of_valid s now t row hschema h1 h2, ?_⟩
  have hhash : (insertDone s now t row).hashes (rowKey t (toString (ctrOf s t + 1))) =
      hmsetList [] (row ++ [("_created_at", toString now), ("_updated_at", toString now)]) := by
    rw [insertDone_hashes, Function.update_same, hfresh]
  have hpsnd : ((row ++ [("_created_at", toString now), ("_updated_at", toString now)]).map
      Prod.fst).Nodup := by
    rw [List.map_append, List.nodup_append]
    refine ⟨hnodup, by simp, ?_⟩
    intro a ha hb
    simp only [List.map_cons, List.map_nil, List.mem_cons, List.mem_singleton,
      List.not_mem_nil, or_false] at hb
    rcases hb with hb | hb
    · exact hca (hb ▸ ha)
    · exact hua (hb ▸ ha)
  have hmain : ∀ g, rlookup (hmsetList []
      (row ++ [("_created_at", toString now), ("_updated_at", toString now)])) g =
      if g = "_created_at" ∨ g = "_updated_at" then some (toString now)
      else rlookup row g := by
    intro g
    rw [rlookup_hmsetList_of_nodup _ hpsnd, rlookup_append]
    by_cases hg1 : g = "_created_at"
    · subst hg1
      rw [rlookup_eq_none_iff.mpr hca]
      simp [rlookup_cons]
    · by_cases hg2 : g = "_updated_at"
      · subst hg2
        rw [rlookup_eq_none_iff.mpr hua]
        simp [rlookup_cons]
      · have hnone : rlookup [("_created_at", toString now), ("_updated_at", toString now)] g
            = none := by
          rw [rlookup_cons, if_neg (fun hh => hg1 hh.symm), rlookup_cons,
            if_neg (fun hh => hg2 hh.symm)]
          rfl
        rw [hnone]
        simp [rlookup_nil, hg1, hg2]
  have hne2 : hmsetList []
      (row ++ [("_created_at", toString now), ("_updated_at", toString now)]) ≠ [] := by
    intro hh
    have hl := hmain "_updated_at"
    rw [hh] at hl
    simp [rlookup] at hl
  refine ⟨_, ?_, hmain⟩
  unfold getById
  rw [hhash, if_neg hne2]

/-- Claim C4 counterexample: createTable accepts a schema containing
"_created_at"; inserting the exactly-matching record {_created_at: "x"} at
time 7 succeeds, but getById then shows _created_at = "7" — the input value
"x" was overwritten, so the result is not the input record plus two
additional fields. -/
theorem c4_counterexample :
    (insert ((createTable emptyState "t" ["_created_at"]).2) 7 "t"
      [("_created_at", "x")]).1 = .ok "1" ∧
    rlookup (((insert ((createTable emptyState "t" ["_created_at"]).2) 7 "t"
      [("_created_at", "x")]).2).hashes (rowKey "t" "1")) "_created_at" = some "7" ∧
    ("7" : String) ≠ "x" := by
  exact ⟨by decide, by decide, by decide⟩

theorem c4_witness :
    insert demoState 3 "t" [("a", "z")] =
      (.ok (toString (ctrOf demoState "t" + 1)), insertDone demoState 3 "t" [("a", "z")]) ∧
    ∃ h, getById (insertDone demoState 3 "t" [("a", "z")]) "t"
        (toString (ctrOf demoState "t" + 1)) = some h ∧
      ∀ g, rlookup h g =
        if g = "_created_at" ∨ g = "_updated_at" then some (toString 3)
        else rlookup [("a", "z")] g :=
  c4_insert_then_getById demoState 3 "t" [("a", "z")]
    (by decide) (by decide) (by decide) (by decide) (by decide) (by decide) (by decide)

/-- Claim C5: a successful delete makes the row disappear from getAll, makes
getById return "not found", removes the id from the membership set, and
removes it from every field-value index it was previously a member of
(underscore-prefixed fields are never indexed in a consistent state).  The
hypotheses are the data-model invariant for the pre-state: sets are
duplicate-free, and the id occurs in a set only as table membership or as a
field-value index entry consistent with the row's current values. -/
theorem c5_delete_removes_everywhere (s : RedisState) (ab : Nat → Bool) (t id : String)
    (hab : ab 0 = false)
    (hrow : s.hashes (rowKey t id) ≠ [])
    (hnd : ∀ k, (s.sets k).Nodup)
    (hcons : ∀ k, id ∈ s.sets k → k = rowsSetKey t ∨
      ∃ f v, k = indexKey t f v ∧ startsWithUnderscore f = false ∧
        rlookup (s.hashes (rowKey t id)) f = some v) :
    (delete s ab t id).1 = .ok true ∧
    getById ((delete s ab t id).2) t id = none ∧
    id ∉ ((delete s ab t id).2).sets (rowsSetKey t) ∧
    (∀ p ∈ getAll ((delete s ab t id).2) t none, p.1 ≠ id) ∧
    (∀ f v, id ∈ s.sets (indexKey t f v) →
      id ∉ ((delete s ab t id).2).sets (indexKey t f v)) := by
  have hok : (delete s ab t id).1 = .ok true := by
    rw [show delete s ab t id = _ from deleteLoop_first ab t id 4 0 s hrow hab]
  have hprops := deleteLoop_ok_props ab t id maxRetries 0 s hnd hok
  have hh : ((delete s ab t id).2).hashes (rowKey t id) = [] := hprops.1
  have hmem : id ∉ ((delete s ab t id).2).sets (rowsSetKey t) := hprops.2.1
  have hidx : ∀ f v, startsWithUnderscore f = false →
      rlookup (s.hashes (rowKey t id)) f = some v →
      id ∉ ((delete s ab t id).2).sets (indexKey t f v) := hprops.2.2
  refine ⟨hok, ?_, hmem, ?_, ?_⟩
  · unfold getById
    rw [hh]
    rfl
  · intro p hp
    obtain ⟨rid, hrid, rfl⟩ := List.mem_map.mp hp
    intro hcontra
    simp only at hcontra
    exact hmem (hcontra ▸ hrid)
  · intro f v hin
    rcases hcons (indexKey t f v) hin with hk | ⟨f2, v2, hk, hf2, hl2⟩
    · rw [hk]
      exact hmem
    · rw [hk]
      exact hidx f2 v2 hf2 hl2

theorem c5_witness :
    (delete demoState (fun _ => false) "t" "1").1 = .ok true ∧
    getById ((delete demoState (fun _ => false) "t" "1").2) "t" "1" = none ∧
    "1" ∉ ((delete demoState (fun _ => false) "t" "1").2).sets (rowsSetKey "t") ∧
    (∀ p ∈ getAll ((delete demoState (fun _ => false) "t" "1").2) "t" none, p.1 ≠ "1") ∧
    (∀ f v, "1" ∈ demoState.sets (indexKey "t" f v) →
      "1" ∉ ((delete demoState (fun _ => false) "t" "1").2).sets (indexKey "t" f v)) :=
  c5_delete_removes_everywhere demoState (fun _ => false) "t" "1" (by decide) (by decide)
    (by
      intro k
      simp only [demoState, Function.update_apply]
      split_ifs <;> decide)
    (by
      intro k hk
      simp only [demoState, Function.update_apply] at hk
      by_cases hk1 : k = indexKey "t" "a" "x"
      · subst hk1
        exact Or.inr ⟨"a", "x", rfl, by decide, by decide⟩
      · rw [if_neg hk1] at hk
        by_cases hk2 : k = rowsSetKey "t"
        · exact Or.inl hk2
        · rw [if_neg hk2] at hk
          by_cases hk3 : k = schemaKey "t"
          · rw [if_pos hk3] at hk
            exact absurd hk (by decide)
          · rw [if_neg hk3] at hk
            exact absurd hk (List.not_mem_nil _))

/-- Claim C9: getSortedSetByScore returns exactly the members whose score
lies in the inclusive [min, max] range (with the -inf / +inf sentinels as
unbounded bounds), in ascending score order; and when both limit and offset
options are given they are applied after range filtering and before
materializing: the first `offset` in-range members are skipped and at most
`limit` are returned. -/
theorem c9_sorted_range_query (s : RedisState) (key : String) (lo hi : ScoreBound)
    (off lim : Nat) (ws : Bool) :
    ∃ l : List (String × Int),
      l.Pairwise (fun a b => a.2 ≤ b.2) ∧
      (∀ m sc, (m, sc) ∈ l ↔ ((m, sc) ∈ s.zsets key ∧ inRange lo hi sc = true)) ∧
      getSortedSetByScore s key lo hi none = l.map Prod.fst ∧
      getSortedSetByScore s key lo hi (some ⟨some lim, some off, ws⟩) =
        ((l.drop off).take lim).map Prod.fst := by
  refine ⟨(jsSort zleB (s.zsets key)).filter (fun p => inRange lo hi p.2), ?_, ?_, rfl, rfl⟩
  · have hpw := pairwise_jsSort zleB (s.zsets key)
      (fun a _ b _ c _ => zleB_trans a b c) (fun a _ b _ => zleB_total a b)
    exact (hpw.filter _).imp (fun h => score_le_of_zleB h)
  · intro m sc
    simp [List.mem_filter, mem_jsSort]

/-- Claim C10: with a truthy sortBy option and all rows carrying the named
field, applyQueryOptions — and therefore getAll and findByField, which defer
to it — returns a permutation of the rows ordered by lexicographic string
comparison of that field's values (the `≤` of the derived String order, never
numeric comparison), reversed when sortOrder is 'desc', with offset applied
before limit. -/
theorem c10_sort_and_pagination (rows : List (String × Row)) (o : QueryOptions)
    (f : String) (off lim : Nat)
    (hsort : o.sortBy = some f) (hf : f ≠ "")
    (hoff : o.offset = some off) (hlim : o.limit = some lim)
    (hpres : ∀ r ∈ rows, (rlookup r.2 f).isSome = true) :
    ∃ sortedRows : List (String × Row),
      sortedRows.Perm rows ∧
      (o.sortOrder ≠ some "desc" →
        sortedRows.Pairwise (fun a b => sortVal f a ≤ sortVal f b)) ∧
      (o.sortOrder = some "desc" →
        sortedRows.Pairwise (fun a b => sortVal f b ≤ sortVal f a)) ∧
      applyQueryOptions rows (some o) = (sortedRows.drop off).take lim ∧
      (∀ (st : RedisState) (t : String),
        getAll st t (some o) = applyQueryOptions (getAllRows st t) (some o)) ∧
      (∀ (st : RedisState) (t fld v : String),
        findByField st t fld v (some o) =
          applyQueryOptions ((st.sets (indexKey t fld v)).map
            (fun rowId => (rowId, st.hashes (rowKey t rowId)))) (some o)) := by
  have hiff : ∀ a ∈ rows, ∀ b ∈ rows,
      ((fun x y => decide (rowCmp o f x y ≤ 0)) a b = true ↔
        (if o.sortOrder = some "desc" then sortVal f b ≤ sortVal f a
          else sortVal f a ≤ sortVal f b)) := by
    intro a ha b hb
    simp only [decide_eq_true_eq]
    exact rowCmp_le_iff o f a b (hpres a ha) (hpres b hb)
  have hpw : (jsSort (fun x y => decide (rowCmp o f x y ≤ 0)) rows).Pairwise
      (fun a b => (fun x y => decide (rowCmp o f x y ≤ 0)) a b = true) := by
    apply pairwise_jsSort
    · intro a ha b hb c hc hab hbc
      have h1 := (hiff a ha b hb).mp hab
      have h2 := (hiff b hb c hc).mp hbc
      refine (hiff a ha c hc).mpr ?_
      by_cases hd : o.sortOrder = some "desc"
      · rw [if_pos hd] at h1 h2 ⊢
        exact le_trans h2 h1
      · rw [if_neg hd] at h1 h2 ⊢
        exact le_trans h1 h2
    · intro a ha b hb
      by_cases hd : o.sortOrder = some "desc"
      · rcases le_total (sortVal f b) (sortVal f a) with hle | hle
        · exact Or.inl ((hiff a ha b hb).mpr (by rw [if_pos hd]; exact hle))
        · exact Or.inr ((hiff b hb a ha).mpr (by rw [if_pos hd]; exact hle))
      · rcases le_total (sortVal f a) (sortVal f b) with hle | hle
        · exact Or.inl ((hiff a ha b hb).mpr (by rw [if_neg hd]; exact hle))
        · exact Or.inr ((hiff b hb a ha).mpr (by rw [if_neg hd]; exact hle))
  have hperm := jsSort_perm (fun x y => decide (rowCmp o f x y ≤ 0)) rows
  refine ⟨jsSort (fun x y => decide (rowCmp o f x y ≤ 0)) rows, hperm, ?_, ?_, ?_,
    fun st t => rfl, fun st t fld v => rfl⟩
  · intro hd
    refine List.Pairwise.imp_of_mem ?_ hpw
    intro a b ha hb hab
    have haa : a ∈ rows := hperm.mem_iff.mp ha
    have hbb : b ∈ rows := hperm.mem_iff.mp hb
    have hv := (hiff a haa b hbb).mp hab
    rwa [if_neg hd] at hv
  · intro hd
    refine List.Pairwise.imp_of_mem ?_ hpw
    intro a b ha hb hab
    have haa : a ∈ rows := hperm.mem_iff.mp ha
    have hbb : b ∈ rows := hperm.mem_iff.mp hb
    have hv := (hiff a haa b hbb).mp hab
    rwa [if_pos hd] at hv
  · simp only [applyQueryOptions, hsort, hoff, hlim, if_neg hf]

theorem c10_witness :
    ∃ sortedRows : List (String × Row),
      sortedRows.Perm [("1", [("a", "9")]), ("2", [("a", "10")])] ∧
      ((QueryOptions.mk (some 2) (some 0) (some "a") none).sortOrder ≠ some "desc" →
        sortedRows.Pairwise (fun a b => sortVal "a" a ≤ sortVal "a" b)) ∧
      ((QueryOptions.mk (some 2) (some 0) (some "a") none).sortOrder = some "desc" →
        sortedRows.Pairwise (fun a b => sortVal "a" b ≤ sortVal "a" a)) ∧
      applyQueryOptions [("1", [("a", "9")]), ("2", [("a", "10")])]
          (some (QueryOptions.mk (some 2) (some 0) (some "a") none)) =
        (sortedRows.drop 0).take 2 ∧
      (∀ (st : RedisState) (t : String),
        getAll st t (some (QueryOptions.mk (some 2) (some 0) (some "a") none)) =
          applyQueryOptions (getAllRows st t)
            (some (QueryOptions.mk (some 2) (some 0) (some "a") none))) ∧
      (∀ (st : RedisState) (t fld v : String),
        findByField st t fld v (some (QueryOptions.mk (some 2) (some 0) (some "a") none)) =
          applyQueryOptions ((st.sets (indexKey t fld v)).map
            (fun rowId => (rowId, st.hashes (rowKey t rowId))))
            (some (QueryOptions.mk (some 2) (some 0) (some "a") none))) :=
  c10_sort_and_pagination [("1", [("a", "9")]), ("2", [("a", "10")])]
    (QueryOptions.mk (some 2) (some 0) (some "a") none) "a" 0 2
    rfl (by decide) rfl rfl (by decide)

end RedisAdapter
